import Mathlib

/-!
Verification of the ioseq package (rogpeppe/ioseq): adapters between a
pull-style byte-chunk sequence (`Seq = iter.Seq2[[]byte, error]`) and
push-style readers/writers (`io.Reader`, `io.Writer`).

Shallow embedding notes.

Byte slices are modelled as `List Nat` (contents only); the one claim that
is about slice aliasing (`slices.Clip` in `seqWriter.Write`) uses an
explicit slice-header/heap model (`GoSlice`, `Heap`) further below.

A `Seq` value in Go is a function over a `yield` callback.  Every `Seq`
constructed by this package has a uniform interaction contract, which we
prove for each constructor as an operational function (`runFB`, `runFast`,
`runPipe`) agreeing with a generic driver `driveSeqT` over a denotation
`SeqT` (the list of chunk steps plus an optional terminal error step):

  - each chunk is passed to `yield` in production order;
  - if `yield` returns false the sequence stops and yields nothing more
    (in particular no error step);
  - an error step, when present, is the final step.

Consumers are modelled by an acceptance function `accept : Nat → Bool`
giving the result of the i-th `yield` call; since all producers here are
deterministic this captures every (stateful) consumer.

Go errors are modelled by `GoErr`; `io.EOF` is `GoErr.eof`,
`ErrSequenceTerminated` is `GoErr.sequenceTerminated`, and other reader /
transform failures are `GoErr.custom n`.
-/

namespace Ioseq

/-- Model of a Go `error` value: `io.EOF`, `ErrSequenceTerminated`
(declared in seq.go line 197), or any other distinct error. -/
inductive GoErr where
  | eof
  | sequenceTerminated
  | custom (n : Nat)
deriving DecidableEq, Repr

/-- Byte-slice contents. -/
abbrev Bytes := List Nat

/-- One step of a `Seq` as observed by a consumer: a chunk yield
`yield(data, nil)` or an error yield `yield(nil, err)`. -/
inductive Step where
  | chunk (data : Bytes)
  | fail (e : GoErr)
deriving DecidableEq, Repr

/-- Denotation of a well-formed `Seq`: the chunks it yields to a fully
accepting consumer, followed by an optional terminal error step
(doc of `Seq`, seq.go lines 10-28: exactly one of chunk/error per step,
the sequence ends at the first error). -/
structure SeqT where
  chunks : List Bytes
  err : Option GoErr
deriving DecidableEq, Repr

/-- Concatenation of a list of chunks. -/
def flat : List Bytes → Bytes
  | [] => []
  | c :: cs => c ++ flat cs

/-- Generic chunk-yield loop: yields each chunk in order, numbering the
yield calls from `i`; stops at the first refusal.  Returns the steps the
consumer observed, whether every yield was accepted, and the next yield
index. -/
def driveChunks (accept : Nat → Bool) : List Bytes → Nat → List Step × Bool × Nat
  | [], i => ([], true, i)
  | c :: cs, i =>
    if accept i then
      let r := driveChunks accept cs (i + 1)
      (Step.chunk c :: r.1, r.2.1, r.2.2)
    else ([Step.chunk c], false, i + 1)

/-- Generic driver of a `SeqT` against a consumer: chunks in order,
stopping at the first refusal; the terminal error step is yielded only
when every chunk was accepted. -/
def driveSeqT (s : SeqT) (accept : Nat → Bool) : List Step :=
  let r := driveChunks accept s.chunks 0
  match s.err, r.2.1 with
  | some e, true => r.1 ++ [Step.fail e]
  | _, _ => r.1

/-! ## ReaderFromSeq / iterReader (seq.go lines 82-145)

An `iterReader` holds the original `Seq` until the first `Read`, at which
point `iter.Pull2` converts it into a `next` function.  `next` returns
the yielded pairs of the sequence in order (`(data, nil)` per chunk, then
`(nil, err)` if the sequence ends in an error), then `ok = false`. -/

/-- The successive results of `iter.Pull2(seq).next` for a sequence with
denotation `s`, while `ok` is true: the full-acceptance yield pairs. -/
def pullItems (s : SeqT) : List (Bytes × Option GoErr) :=
  s.chunks.map (fun c => (c, none)) ++
    (match s.err with
     | some e => [(([] : Bytes), some e)]
     | none => [])

/-- State of an `iterReader` (seq.go lines 90-97).
`seq = some s` models `r.seq != nil` (no `Read` yet); `pulls` is the list
of pairs `r.next` has yet to return; `closeLive` models `r.close != nil`;
`err` and `data` are the `r.err` and `r.data` fields. -/
structure RState where
  seq : Option SeqT
  pulls : List (Bytes × Option GoErr)
  closeLive : Bool
  err : Option GoErr
  data : Bytes
deriving DecidableEq, Repr

/-- `ReaderFromSeq(seq)` (seq.go lines 84-88): all other fields zero. -/
def freshReader (s : SeqT) : RState :=
  ⟨some s, [], false, none, []⟩

/-- The lazy conversion at the top of `Read` (seq.go lines 113-117):
`r.next, r.close = iter.Pull2(r.seq); r.seq = nil`. -/
def initR (st : RState) : RState :=
  match st.seq with
  | some s => { st with seq := none, pulls := pullItems s, closeLive := true }
  | none => st

/-- `iterReader.Read` (seq.go lines 112-134) with a destination buffer of
length `b`.  Returns the bytes copied into the buffer, the returned
error, and the updated reader state. -/
def readGo (st : RState) (b : Nat) : Bytes × Option GoErr × RState :=
  let st1 := initR st
  if st1.err.isSome then ([], st1.err, st1)
  else
    let st2 :=
      if st1.data.isEmpty then
        match st1.pulls with
        | [] => { st1 with err := some GoErr.eof }
        | p :: rest => { st1 with data := p.1, err := p.2, pulls := rest }
      else st1
    let n := min b st2.data.length
    let out := st2.data.take n
    let st3 := { st2 with data := st2.data.drop n }
    if st3.data.isEmpty then (out, st3.err, st3) else (out, none, st3)

/-- `iterReader.Close` (seq.go lines 136-145): a no-op unless the
continuation exists; always returns nil. -/
def closeGo (st : RState) : RState × Option GoErr :=
  if st.closeLive then
    ({ st with closeLive := false,
               err := match st.err with
                      | none => some GoErr.eof
                      | some e => some e }, none)
  else (st, none)

/-! ## Sequence Sink: SeqWriter / seqWriter (seq.go lines 165-208)

Contents-level model.  `SW` is the sink-visible state: the shared active
flag, the yield-call counter (used to consult the consumer's acceptance
function), and the trace of steps yielded so far.  `slices.Clip` does not
change slice contents, so at the contents level the chunk yielded is
`buf` itself; the aliasing behaviour of `Clip` is modelled separately
below for the claim about it. -/

structure SW where
  active : Bool
  idx : Nat
  trace : List Step
deriving DecidableEq, Repr

/-- `seqWriter.Write` (seq.go lines 199-208). -/
def swWrite (accept : Nat → Bool) (st : SW) (buf : Bytes) :
    Nat × Option GoErr × SW :=
  if !st.active then (0, some GoErr.sequenceTerminated, st)
  else if accept st.idx then
    (buf.length, none,
     { st with idx := st.idx + 1, trace := st.trace ++ [Step.chunk buf] })
  else
    (0, some GoErr.sequenceTerminated,
     ⟨false, st.idx + 1, st.trace ++ [Step.chunk buf]⟩)

/-- A caller performing a list of `Write` calls unconditionally (it keeps
calling whatever the previous results were), collecting each call's
`(n, err)` result. -/
def writeMany (accept : Nat → Bool) : SW → List Bytes → List (Nat × Option GoErr) × SW
  | st, [] => ([], st)
  | st, c :: cs =>
    let r := swWrite accept st c
    let rest := writeMany accept r.2.2 cs
    ((r.1, r.2.1) :: rest.1, rest.2)

/-! ## SeqFromReader, fallback path (seq.go lines 49-73)

The demand-driven byte source `r` is modelled by the results its `Read`
method returns into the one working buffer: a list `pre` of non-terminal
results (each `(n, nil)`, recorded as the filled bytes, possibly empty),
then one terminal result returning `finalData` bytes together with error
`finalErr` (`GoErr.eof` for a clean end of input).  The `io.Reader`
contract requires each result to fit the buffer, `length ≤ bufSize`. -/

structure RScript where
  pre : List Bytes
  finalData : Bytes
  finalErr : GoErr
deriving DecidableEq, Repr

/-- The non-terminal iterations of the fallback loop: each non-empty fill
is yielded (`n > 0 && !yield(buf[:n], nil)`; empty fills are skipped
without a yield); a refusal returns from the sequence function at once. -/
def runFBPre (accept : Nat → Bool) : List Bytes → Nat → List Step × Bool × Nat
  | [], i => ([], true, i)
  | d :: ds, i =>
    if d.isEmpty then runFBPre accept ds i
    else if accept i then
      let r := runFBPre accept ds (i + 1)
      (Step.chunk d :: r.1, r.2.1, r.2.2)
    else ([Step.chunk d], false, i + 1)

/-- The fallback sequence of `SeqFromReader` run against a consumer: the
loop over `pre`, then the terminal iteration (seq.go lines 52-67):
`io.EOF` is erased, a non-empty final fill is yielded first, and a
remaining non-nil error is yielded as a final error step. -/
def runFB (sc : RScript) (accept : Nat → Bool) : List Step :=
  let r := runFBPre accept sc.pre 0
  if r.2.1 then
    let errSteps : List Step :=
      if sc.finalErr = GoErr.eof then [] else [Step.fail sc.finalErr]
    if sc.finalData.isEmpty then r.1 ++ errSteps
    else if accept r.2.2 then r.1 ++ [Step.chunk sc.finalData] ++ errSteps
    else r.1 ++ [Step.chunk sc.finalData]
  else r.1

/-- Denotation of the fallback sequence: the non-empty fills in order,
with a terminal error step exactly when the reader ended with a non-EOF
failure. -/
def fallbackSeqT (sc : RScript) : SeqT :=
  ⟨(sc.pre ++ [sc.finalData]).filter (fun c => !c.isEmpty),
   if sc.finalErr = GoErr.eof then none else some sc.finalErr⟩

/-! ## SeqFromReader, WriterTo fast path (seq.go lines 34-48)

A source with bulk self-transfer is modelled by the chunks its `WriteTo`
writes to the sink it is handed, plus the error `WriteTo` itself would
return after completing all writes (`none` for a clean finish).  The
source is well-behaved per the `io.WriterTo` contract: it stops at the
first failed write and returns that write's error. -/

structure WriterToSrc where
  writes : List Bytes
  final : Option GoErr
deriving DecidableEq, Repr

/-- The write loop of the fast path: each write calls the `writerFunc`
sink, which yields the data; on refusal it records `active = false` and
returns `ErrSequenceTerminated` to the source, which stops.  Returns the
steps yielded, the final value of `active`, and the error produced by a
refused write (`none` when all writes succeeded). -/
def runFastLoop (accept : Nat → Bool) : List Bytes → Nat → List Step × Bool × Option GoErr
  | [], _ => ([], true, none)
  | c :: cs, i =>
    if accept i then
      let r := runFastLoop accept cs (i + 1)
      (Step.chunk c :: r.1, r.2)
    else ([Step.chunk c], false, some GoErr.sequenceTerminated)

/-- The fast-path sequence run against a consumer: after `WriteTo`
returns, its error (the manufactured `ErrSequenceTerminated` after a
refusal, or the source's own terminal error) is yielded as an error step
only when non-nil and `active` still holds (seq.go lines 44-46). -/
def runFast (src : WriterToSrc) (accept : Nat → Bool) : List Step :=
  let r := runFastLoop accept src.writes 0
  let e : Option GoErr :=
    match r.2.2 with
    | some e0 => some e0
    | none => src.final
  match e, r.2.1 with
  | some e0, true => r.1 ++ [Step.fail e0]
  | _, _ => r.1

/-- Denotation of the fast-path sequence. -/
def fastSeqT (src : WriterToSrc) : SeqT := ⟨src.writes, src.final⟩

/-! ## CopySeq (seq.go lines 150-163) -/

/-- A push-style destination writer with state `σ`: `write` returns the
accepted count, an optional error, and the updated writer state. -/
structure MWriter (σ : Type) where
  write : σ → Bytes → Nat × Option GoErr × σ

/-- The `CopySeq` loop over a sequence with denotation chunks `cs` and
terminal error `e`: writes each chunk, accumulating the written count;
stops at the first write failure (returning it) or at the sequence's
error step (returning that error). -/
def copySeqM (w : MWriter σ) : List Bytes → Option GoErr → σ → Nat →
    Nat × Option GoErr × σ
  | [], e, s, tot => (tot, e, s)
  | c :: cs, e, s, tot =>
    let r := w.write s c
    match r.2.1 with
    | some we => (tot + r.1, some we, r.2.2)
    | none => copySeqM w cs e r.2.2 (tot + r.1)

/-- `CopySeq(w, seq)` for a sequence with denotation `s`. -/
def copySeq (w : MWriter σ) (s0 : σ) (s : SeqT) : Nat × Option GoErr × σ :=
  copySeqM w s.chunks s.err s0 0

/-- A sink that accepts everything, gathering the bytes written. -/
def gatherW : MWriter Bytes := ⟨fun s c => (c.length, none, s ++ c)⟩

/-! ## iterReader.WriteTo (seq.go lines 100-110) -/

/-- The replacement sequence installed after the bulk path,
`func(func([]byte, error) bool) {}`: yields nothing. -/
def emptySeqT : SeqT := ⟨[], none⟩

/-- Reader state after the bulk fast path ran on a fresh reader. -/
def postBulk : RState := ⟨some emptySeqT, [], false, none, []⟩

/-- `iterReader.WriteTo` with an explicit recursion bound.  When `Read`
has not yet been called (`seq = some s`) it runs `CopySeq` and installs
the empty sequence.  Otherwise it executes `io.Copy(w, r)`; since
`*iterReader` implements `io.WriterTo`, `io.Copy` is specified to
perform the copy by calling `r.WriteTo(w)` again, which is this very
function: the call never reaches a `Read` loop.  `none` means no result
was produced within `fuel` recursive calls. -/
def iterWriteToF (w : MWriter σ) (s0 : σ) :
    Nat → RState → Option (Nat × Option GoErr × σ × RState)
  | 0, _ => none
  | fuel + 1, st =>
    match st.seq with
    | some s =>
      let r := copySeq w s0 s
      some (r.1, r.2.1, r.2.2, { st with seq := some emptySeqT })
    | none => iterWriteToF w s0 fuel st

/-! ## Reading a stream reader to exhaustion -/

/-- Repeated `Read` calls with a destination buffer of length `b + 1`
(every positive buffer size), concatenating the bytes obtained, until a
call returns a non-nil error (the io.Reader convention; `io.EOF` is the
clean end).  `fuel` bounds the number of calls; `none` means the bound
was reached before a terminal result. -/
def readAllF : Nat → Nat → RState → Option (Bytes × GoErr)
  | 0, _, _ => none
  | fuel + 1, b, st =>
    let r := readGo st (b + 1)
    match r.2.1 with
    | some e => some (r.1, e)
    | none =>
      match readAllF fuel b r.2.2 with
      | none => none
      | some rest => some (r.1 ++ rest.1, rest.2)

/-- Well-formedness of a pull-item list: an item carrying an error has
nil data and is the last item. -/
def pullsWF : List (Bytes × Option GoErr) → Prop
  | [] => True
  | p :: rest =>
    match p.2 with
    | some _ => p.1 = [] ∧ rest = []
    | none => pullsWF rest

/-- The bytes remaining in a pull-item list (all data before the error
item). -/
def pullsData : List (Bytes × Option GoErr) → Bytes
  | [] => []
  | p :: rest =>
    match p.2 with
    | some _ => []
    | none => p.1 ++ pullsData rest

/-- The terminal condition a read loop reports from a pull-item list:
the error item's error, or `io.EOF` when the items run out. -/
def pullsErr : List (Bytes × Option GoErr) → GoErr
  | [] => GoErr.eof
  | p :: rest =>
    match p.2 with
    | some e => e
    | none => pullsErr rest

/-- Enough `Read` calls to drain a pull-item list. -/
def pullsFuel : List (Bytes × Option GoErr) → Nat
  | [] => 0
  | p :: rest => p.1.length + 1 + pullsFuel rest

/-- Enough `Read` calls to drain a fresh reader over `s`. -/
def fuelFor (s : SeqT) : Nat := pullsFuel (pullItems s) + 1

/-! ## PipeSeqThrough (seq.go lines 216-230)

The transform (the closable sink `f` returns, e.g. an encoder) is
modelled by the output chunks it writes to its destination sink for the
i-th `Write` call it receives, together with an optional failure of its
own for that call, and likewise for `Close` (trailer chunks, e.g.
padding, plus an optional failure).  The transform is well-behaved: it
stops writing at the first failed destination write and propagates that
error from its own `Write`/`Close`. -/

structure XForm where
  wr : Nat → List Bytes × Option GoErr
  cl : List Bytes × Option GoErr

/-- Writing a list of chunks through the sequence sink, stopping at the
first failure. -/
def writeList (accept : Nat → Bool) : SW → List Bytes → Option GoErr × SW
  | st, [] => (none, st)
  | st, c :: cs =>
    let r := swWrite accept st c
    match r.2.1 with
    | some e => (some e, r.2.2)
    | none => writeList accept r.2.2 cs

/-- State threaded through `CopySeq` inside `PipeSeqThrough`: the count
of `Write` calls the transform has received, and the sequence sink
state. -/
structure PSt where
  w : Nat
  sw : SW

/-- The transform as the destination writer of the `CopySeq` loop: one
input chunk becomes one transform `Write` call, which pushes that call's
output chunks through the sequence sink. -/
def xfWriter (xf : XForm) (accept : Nat → Bool) : MWriter PSt :=
  ⟨fun st buf =>
    let outs := (xf.wr st.w).1
    let r := writeList accept st.sw outs
    let err : Option GoErr :=
      match r.1 with
      | some e => some e
      | none => (xf.wr st.w).2
    ((if err = none then buf.length else 0), err, ⟨st.w + 1, r.2⟩)⟩

/-- The transform's `Close`: pushes the trailer chunks, then reports the
first failure or its own `Close` failure. -/
def xfClose (xf : XForm) (accept : Nat → Bool) (sw : SW) : Option GoErr × SW :=
  let r := writeList accept sw xf.cl.1
  (match r.1 with
   | some e => some e
   | none => xf.cl.2, r.2)

/-- Result of running a `PipeSeqThrough` output sequence: the steps it
yielded, whether the transform's `Close` was invoked, the error `CopySeq`
returned, the error `send` returned, and the final value of the shared
active flag. -/
structure PipeRes where
  trace : List Step
  closed : Bool
  copyErr : Option GoErr
  sendErr : Option GoErr
  activeEnd : Bool
deriving DecidableEq, Repr

/-- `PipeSeqThrough(seq, f)` (seq.go lines 216-230) run against a
consumer: `send` runs `CopySeq` of the input into the transform, then —
only if that succeeded — the transform's `Close`; a non-nil `send` error
is yielded as the output's error step only while the active flag still
holds. -/
def runPipe (xf : XForm) (inT : SeqT) (accept : Nat → Bool) : PipeRes :=
  let st0 : PSt := ⟨0, ⟨true, 0, []⟩⟩
  let c := copySeq (xfWriter xf accept) st0 inT
  match c.2.1 with
  | some e =>
    ⟨if c.2.2.sw.active then c.2.2.sw.trace ++ [Step.fail e] else c.2.2.sw.trace,
     false, some e, some e, c.2.2.sw.active⟩
  | none =>
    let cr := xfClose xf accept c.2.2.sw
    match cr.1 with
    | some e =>
      ⟨if cr.2.active then cr.2.trace ++ [Step.fail e] else cr.2.trace,
       true, none, some e, cr.2.active⟩
    | none => ⟨cr.2.trace, true, none, none, cr.2.active⟩

/-- The output chunks the transform produces for `m` consecutive input
chunks starting at write index `k`, in order.  `outsFrom xf 0 m` is the
full transformed output of the first `m` input chunks. -/
def outsFrom (xf : XForm) : Nat → Nat → List Bytes
  | _, 0 => []
  | k, m + 1 => (xf.wr k).1 ++ outsFrom xf (k + 1) m

/-! ## Slice-level model of seqWriter.Write for the Clip claim

A Go slice header: backing array identity, offset, length, capacity.
`Heap` maps array identities to contents. -/

structure GoSlice where
  arr : Nat
  off : Nat
  len : Nat
  cap : Nat
deriving DecidableEq, Repr

/-- Array contents store. -/
def Heap := Nat → List Nat

/-- The bytes visible through a slice header. -/
def view (h : Heap) (s : GoSlice) : List Nat :=
  ((h s.arr).drop s.off).take s.len

/-- `slices.Clip(s)`: same backing array, offset and length; capacity
reduced to the length.  No bytes are copied. -/
def slicesClip (s : GoSlice) : GoSlice := ⟨s.arr, s.off, s.len, s.len⟩

/-- `seqWriter.Write` at the slice level (seq.go lines 199-208): the
fourth component is the slice header passed to the step function, or
`none` when the step function was not invoked. -/
def seqWriterWriteSl (active : Bool) (accepts : Bool) (buf : GoSlice) :
    Nat × Option GoErr × Bool × Option GoSlice :=
  if !active then (0, some GoErr.sequenceTerminated, active, none)
  else if accepts then (buf.len, none, true, some (slicesClip buf))
  else (0, some GoErr.sequenceTerminated, false, some (slicesClip buf))

/-- Go `append(s, x)` for a byte slice: in place when spare capacity
remains, otherwise into a fresh array (identity `fresh`). -/
def goAppend (fresh : Nat) (h : Heap) (s : GoSlice) (x : Nat) : Heap × GoSlice :=
  if s.len < s.cap then
    (fun a => if a = s.arr then (h s.arr).set (s.off + s.len) x else h a,
     ⟨s.arr, s.off, s.len + 1, s.cap⟩)
  else
    (fun a => if a = fresh then view h s ++ [x] else h a,
     ⟨fresh, 0, s.len + 1, s.len + 1⟩)

end Ioseq

namespace Ioseq

/-- Claim C4: once the stream reader has recorded a terminal condition
(`r.err != nil`, a genuine failure or `io.EOF`), every subsequent `Read`
returns that same condition with zero bytes and leaves the state — in
particular the remaining pull items — untouched, so the pull function is
never invoked again.  (`st.seq = none` holds in every reachable state
with `st.err` set, since `Read` clears `seq` before recording any
error.) -/
theorem read_after_terminal (st : RState) (b : Nat) (e : GoErr)
    (h1 : st.seq = none) (h2 : st.err = some e) :
    readGo st b = ([], some e, st) := by
  simp [readGo, initR, h1, h2]

theorem read_after_terminal_witness :
    readGo ⟨none, [([3], none)], true, some (GoErr.custom 7), []⟩ 4
      = ([], some (GoErr.custom 7), ⟨none, [([3], none)], true, some (GoErr.custom 7), []⟩) :=
  read_after_terminal _ 4 (GoErr.custom 7) rfl rfl

/-- Claim C5: `seqWriter.Write` — if the shared active flag is already
false the call fails with `ErrSequenceTerminated` without invoking the
step function (state, in particular the yield trace, unchanged); if the
step function refuses, the flag is set to false and the call fails with
`ErrSequenceTerminated`; otherwise the call reports full success
`(len(buf), nil)`.  Consequently once the flag is false every write of
any subsequent call list fails without the step function ever being
invoked again (trace unchanged across `writeMany`). -/
theorem seqWriter_write_spec (accept : Nat → Bool) (st : SW) (buf : Bytes)
    (bufs : List Bytes) :
    (st.active = false → swWrite accept st buf = (0, some GoErr.sequenceTerminated, st)) ∧
    (st.active = true → accept st.idx = false →
      swWrite accept st buf
        = (0, some GoErr.sequenceTerminated, ⟨false, st.idx + 1, st.trace ++ [Step.chunk buf]⟩)) ∧
    (st.active = true → accept st.idx = true →
      swWrite accept st buf
        = (buf.length, none, ⟨true, st.idx + 1, st.trace ++ [Step.chunk buf]⟩)) ∧
    (st.active = false →
      writeMany accept st bufs
        = (bufs.map (fun _ => (0, some GoErr.sequenceTerminated)), st)) := by
  refine ⟨fun h => ?_, fun h h' => ?_, fun h h' => ?_, fun h => ?_⟩
  · simp [swWrite, h]
  · cases st with
    | mk a i tr => simp_all [swWrite]
  · cases st with
    | mk a i tr => simp_all [swWrite]
  · induction bufs with
    | nil => simp [writeMany]
    | cons c cs ih =>
      simp only [writeMany, swWrite, h, Bool.not_false, if_pos] at ih ⊢
      simp [ih]

theorem seqWriter_write_spec_witness :
    swWrite (fun _ => true) ⟨false, 0, []⟩ [1, 2] = (0, some GoErr.sequenceTerminated, ⟨false, 0, []⟩) ∧
    writeMany (fun _ => true) ⟨false, 0, []⟩ [[1], [2, 3]]
      = ([(0, some GoErr.sequenceTerminated), (0, some GoErr.sequenceTerminated)], ⟨false, 0, []⟩) := by
  have h := seqWriter_write_spec (fun _ => true) ⟨false, 0, []⟩ [1, 2] [[1], [2, 3]]
  exact ⟨h.1 rfl, h.2.2.2 rfl⟩

/-- The fallback loop under a fully accepting consumer yields exactly the
non-empty fills, in order. -/
theorem runFBPre_allTrue (ds : List Bytes) (i : Nat) :
    runFBPre (fun _ => true) ds i
      = ((ds.filter (fun c => !c.isEmpty)).map Step.chunk, true,
         i + (ds.filter (fun c => !c.isEmpty)).length) := by
  induction ds generalizing i with
  | nil => simp [runFBPre]
  | cons d ds ih =>
    by_cases hd : d.isEmpty
    · simpa [runFBPre, hd] using ih i
    · simp [runFBPre, hd, ih (i + 1)]
      omega

/-- Claim C7: the fallback path of `SeqFromReader`, driven to completion,
emits exactly the reader's non-empty fills as chunk steps — including a
final partial fill returned together with the terminal signal — followed
by a single error step exactly when the terminal signal was a genuine
failure; a clean `io.EOF` ends the sequence with no error step. -/
theorem seqFromReader_fallback_errors (sc : RScript) :
    runFB sc (fun _ => true)
      = ((sc.pre ++ [sc.finalData]).filter (fun c => !c.isEmpty)).map Step.chunk
          ++ (if sc.finalErr = GoErr.eof then [] else [Step.fail sc.finalErr]) := by
  by_cases hf : sc.finalData.isEmpty <;>
    by_cases he : sc.finalErr = GoErr.eof <;>
      simp [runFB, runFBPre_allTrue, hf, he, List.filter_append]

/-- The fast-path write loop yields only chunk steps, never an error
step. -/
theorem runFastLoop_noFail (accept : Nat → Bool) (cs : List Bytes) (i : Nat)
    (e : GoErr) : Step.fail e ∉ (runFastLoop accept cs i).1 := by
  induction cs generalizing i with
  | nil => simp [runFastLoop]
  | cons c cs ih =>
    by_cases h : accept i <;> simp [runFastLoop, h]
    exact ih (i + 1)

/-- If the consumer refuses some chunk the source attempts to write, the
fast-path loop ends with the active flag false. -/
theorem runFastLoop_refused (accept : Nat → Bool) (cs : List Bytes) (i : Nat)
    (h : ∃ j, j < cs.length ∧ accept (i + j) = false) :
    (runFastLoop accept cs i).2.1 = false := by
  induction cs generalizing i with
  | nil => simp at h
  | cons c cs ih =>
    obtain ⟨j, hj, hja⟩ := h
    by_cases hi : accept i
    · have hj0 : j ≠ 0 := by
        intro h0
        rw [h0] at hja
        simp [hi] at hja
      simp only [runFastLoop, hi, if_pos]
      exact ih (i + 1) ⟨j - 1, by simp at hj; omega, by
        have : i + 1 + (j - 1) = i + j := by omega
        rw [this]; exact hja⟩
    · simp [runFastLoop, hi]

/-- If the consumer accepts every chunk the source writes, the fast-path
loop yields all of them and reports no write failure. -/
theorem runFastLoop_allAccepted (accept : Nat → Bool) (cs : List Bytes) (i : Nat)
    (h : ∀ j, j < cs.length → accept (i + j) = true) :
    runFastLoop accept cs i = (cs.map Step.chunk, true, none) := by
  induction cs generalizing i with
  | nil => simp [runFastLoop]
  | cons c cs ih =>
    have hi : accept i = true := by simpa using h 0 (by simp)
    have ihr := ih (i + 1) (fun j hj => by
      have : i + 1 + j = i + (j + 1) := by omega
      rw [this]; exact h (j + 1) (by simp; omega))
    simp [runFastLoop, hi, ihr]

/-- Claim C8: on the `WriterTo` fast path of `SeqFromReader`, if the step
function refuses a chunk, the manufactured `ErrSequenceTerminated`
returned to the source is never surfaced as a stream error step (the
sequence simply ends); whereas if the source's bulk transfer fails for a
genuine reason while every yielded chunk was accepted, that failure is
emitted as the sequence's single terminal error step. -/
theorem seqFromReader_fast_errors (src : WriterToSrc) (accept : Nat → Bool) :
    ((∃ j, j < src.writes.length ∧ accept j = false) →
      ∀ e, Step.fail e ∉ runFast src accept) ∧
    ((∀ j, j < src.writes.length → accept j = true) →
      ∀ e, src.final = some e →
        runFast src accept = src.writes.map Step.chunk ++ [Step.fail e]) := by
  constructor
  · intro h e
    have hact := runFastLoop_refused accept src.writes 0 (by simpa using h)
    have hnf := runFastLoop_noFail accept src.writes 0 e
    unfold runFast
    rcases hr : runFastLoop accept src.writes 0 with ⟨tr, act, e0⟩
    rw [hr] at hact hnf
    simp at hact
    subst hact
    cases e0 <;> simp <;> cases src.final <;> simp_all
  · intro h e hfin
    have hr := runFastLoop_allAccepted accept src.writes 0 (by simpa using h)
    simp [runFast, hr, hfin]

theorem seqFromReader_fast_errors_witness :
    Step.fail (GoErr.custom 0) ∉ runFast ⟨[[1], [2]], none⟩ (fun j => j == 0) ∧
    runFast ⟨[[1]], some (GoErr.custom 3)⟩ (fun _ => true)
      = [Step.chunk [1], Step.fail (GoErr.custom 3)] := by
  constructor
  · exact (seqFromReader_fast_errors ⟨[[1], [2]], none⟩ (fun j => j == 0)).1
      ⟨1, by decide, by decide⟩ (GoErr.custom 0)
  · exact (seqFromReader_fast_errors ⟨[[1]], some (GoErr.custom 3)⟩ (fun _ => true)).2
      (fun j _ => rfl) (GoErr.custom 3) rfl

/-- Claim C3, counterexample: closing a fresh `ReaderFromSeq` reader
before any `Read` is a no-op (`r.close` is still nil), so a subsequent
`Read` returns the sequence's data — 3 bytes and no error here — rather
than 0 bytes and end-of-stream as the claim states. -/
theorem close_before_read_cex :
    (readGo (closeGo (freshReader ⟨[[1, 2, 3]], none⟩)).1 8).1 = [1, 2, 3] ∧
    (readGo (closeGo (freshReader ⟨[[1, 2, 3]], none⟩)).1 8).2.1 = none := by
  decide

/-- Claim C3, amended: `Close` always returns nil and is safe to call
whether or not any read occurred; if the continuation exists (at least
one `Read` preceded the `Close`), every subsequent `Read` returns 0
bytes and the recorded terminal condition (`io.EOF` if none was yet
recorded) and leaves the state fixed; but a `Close` before the first
`Read` leaves the reader unchanged, so the next `Read` still pulls from
the sequence. -/
theorem close_then_read (st : RState) (s : SeqT) (b : Nat)
    (h1 : st.closeLive = true) (h2 : st.seq = none) :
    (closeGo st).2 = none ∧
    readGo (closeGo st).1 (b + 1)
      = ([], some (st.err.getD GoErr.eof), (closeGo st).1) ∧
    closeGo (freshReader s) = (freshReader s, none) := by
  refine ⟨by simp [closeGo, h1], ?_, by simp [closeGo, freshReader]⟩
  cases st with
  | mk sq pl cl er da =>
    simp only at h1 h2
    subst h1 h2
    cases er <;> simp [closeGo, readGo, initR]

theorem close_then_read_witness :
    (closeGo ⟨none, [([7], none)], true, none, []⟩).2 = none ∧
    readGo (closeGo ⟨none, [([7], none)], true, none, []⟩).1 (0 + 1)
      = ([], some GoErr.eof, (closeGo ⟨none, [([7], none)], true, none, []⟩).1) ∧
    closeGo (freshReader ⟨[], none⟩) = (freshReader ⟨[], none⟩, none) :=
  close_then_read ⟨none, [([7], none)], true, none, []⟩ ⟨[], none⟩ 0 rfl rfl

/-- Claim C6, counterexample: `seqWriter.Write` passes the step function
`slices.Clip(buf)` — a view sharing `buf`'s backing array, not a copy.
Here the caller's array (identity 0) initially holds `[10, 20, 30, 40,
50, 60]` and `buf` is its first 3 bytes with capacity 6; the yielded
slice has the same array identity, and after the caller overwrites the
array's first byte with 99, the bytes visible through the yielded slice
change — the chunk is not independent of the caller's buffer. -/
theorem seqWriter_clip_cex :
    seqWriterWriteSl true true ⟨0, 0, 3, 6⟩
      = (3, none, true, some (slicesClip ⟨0, 0, 3, 6⟩)) ∧
    (slicesClip ⟨0, 0, 3, 6⟩).arr = (⟨0, 0, 3, 6⟩ : GoSlice).arr ∧
    view (fun _ => [99, 20, 30, 40, 50, 60]) (slicesClip ⟨0, 0, 3, 6⟩)
      ≠ view (fun _ => [10, 20, 30, 40, 50, 60]) (slicesClip ⟨0, 0, 3, 6⟩) := by
  decide

/-- Claim C6, amended: for every successful `Write`, the sink passes the
step function a capacity-clipped view of exactly the requested bytes —
same backing array, offset and length as `buf`, capacity reduced to the
length — not a defensive copy; the view's contents are exactly the
requested bytes, and because its capacity equals its length, an append
performed by the step function allocates a fresh array and leaves the
caller's array untouched. -/
theorem seqWriter_clip_spec (h : Heap) (buf : GoSlice) :
    seqWriterWriteSl true true buf = (buf.len, none, true, some (slicesClip buf)) ∧
    (slicesClip buf).arr = buf.arr ∧
    (slicesClip buf).off = buf.off ∧
    (slicesClip buf).len = buf.len ∧
    (slicesClip buf).cap = buf.len ∧
    view h (slicesClip buf) = view h buf ∧
    (∀ fresh x, fresh ≠ buf.arr →
      (goAppend fresh h (slicesClip buf) x).1 buf.arr = h buf.arr) := by
  refine ⟨rfl, rfl, rfl, rfl, rfl, rfl, fun fresh x hf => ?_⟩
  simp [goAppend, slicesClip, Ne.symm hf]

theorem seqWriter_clip_spec_witness :
    (goAppend 1 (fun _ => [10, 20, 30]) (slicesClip ⟨0, 0, 3, 6⟩) 7).1 0
      = (fun _ => [10, 20, 30]) 0 :=
  (seqWriter_clip_spec (fun _ => [10, 20, 30]) ⟨0, 0, 3, 6⟩).2.2.2.2.2.2 1 7
    (by decide)

/-- `initR` is idempotent: after the lazy conversion, `r.seq` is nil. -/
theorem initR_idem (st : RState) : initR (initR st) = initR st := by
  cases st with
  | mk sq pl cl er da => cases sq <;> simp [initR]

/-- `Read` only looks at the converted state. -/
theorem readGo_init (st : RState) (b : Nat) :
    readGo (initR st) b = readGo st b := by
  unfold readGo
  rw [initR_idem]

/-- A `Read` with residual data copies `min b (len data)` bytes out of it
and touches nothing else. -/
theorem readGo_data (pl : List (Bytes × Option GoErr)) (cl : Bool) (d : Bytes)
    (b : Nat) (hd : d.isEmpty = false) :
    readGo ⟨none, pl, cl, none, d⟩ b
      = (d.take (min b d.length), none,
         ⟨none, pl, cl, none, d.drop (min b d.length)⟩) := by
  by_cases h3 : (d.drop (min b d.length)).isEmpty <;> simp [readGo, initR, hd, h3]

/-- A `Read` with no residual data and no pending pull items records and
returns `io.EOF`. -/
theorem readGo_exhausted (cl : Bool) (b : Nat) :
    readGo ⟨none, [], cl, none, []⟩ b
      = ([], some GoErr.eof, ⟨none, [], cl, some GoErr.eof, []⟩) := by
  simp [readGo, initR]

/-- A `Read` with no residual data pulls the next chunk item and starts
consuming it. -/
theorem readGo_pull (pl : List (Bytes × Option GoErr)) (cl : Bool) (d0 : Bytes)
    (b : Nat) :
    readGo ⟨none, (d0, none) :: pl, cl, none, []⟩ b
      = (d0.take (min b d0.length), none,
         ⟨none, pl, cl, none, d0.drop (min b d0.length)⟩) := by
  by_cases h3 : (d0.drop (min b d0.length)).isEmpty <;>
    simp [readGo, initR, h3]

/-- A `Read` with no residual data that pulls the error item records and
returns that error. -/
theorem readGo_pullErr (pl : List (Bytes × Option GoErr)) (cl : Bool)
    (e : GoErr) (b : Nat) :
    readGo ⟨none, (([] : Bytes), some e) :: pl, cl, none, []⟩ b
      = ([], some e, ⟨none, pl, cl, some e, []⟩) := by
  simp [readGo, initR]

/-- Reading to exhaustion from a converted reader state with no recorded
error and well-formed pending pull items terminates within the stated
fuel and returns the residual data followed by all pending chunk bytes,
with the pending terminal condition. -/
theorem readAllF_spec (b : Nat) : ∀ (fuel : Nat) (pl : List (Bytes × Option GoErr))
    (cl : Bool) (d : Bytes), pullsWF pl →
    d.length + pullsFuel pl + 1 ≤ fuel →
    readAllF fuel b ⟨none, pl, cl, none, d⟩
      = some (d ++ pullsData pl, pullsErr pl) := by
  intro fuel
  induction fuel with
  | zero => intro pl cl d _ hle; omega
  | succ fuel ih =>
    intro pl cl d hwf hle
    by_cases hd : d.isEmpty = false
    · have hrd := readGo_data pl cl d (b + 1) hd
      have hn : 1 ≤ min (b + 1) d.length := by
        have : d.length ≠ 0 := by
          cases d
          · simp at hd
          · simp
        omega
      have ihr := ih pl cl (d.drop (min (b + 1) d.length)) hwf (by
        simp only [List.length_drop]
        omega)
      simp only [readAllF, hrd, ihr]
      rw [← List.append_assoc, List.take_append_drop]
    · have hde : d = [] := by
        cases d
        · rfl
        · simp at hd
      subst hde
      cases pl with
      | nil =>
        simp [readAllF, readGo_exhausted, pullsData, pullsErr]
      | cons p rest =>
        rcases p with ⟨d0, e0⟩
        cases e0 with
        | some e =>
          rcases hwf with ⟨hd0, hrest⟩
          subst hd0 hrest
          simp [readAllF, readGo_pullErr, pullsData, pullsErr]
        | none =>
          have hwf' : pullsWF rest := hwf
          have hrd := readGo_pull rest cl d0 (b + 1)
          have ihr := ih rest cl (d0.drop (min (b + 1) d0.length)) hwf' (by
            simp only [List.length_drop]
            simp only [pullsFuel] at hle
            omega)
          simp only [readAllF, hrd, ihr]
          simp only [pullsData, pullsErr]
          rw [← List.append_assoc, List.take_append_drop]
          simp

/-- The pull items of a sequence denotation are well formed. -/
theorem pullItems_wf (s : SeqT) : pullsWF (pullItems s) := by
  rcases s with ⟨cs, e⟩
  induction cs with
  | nil => cases e <;> simp [pullItems, pullsWF]
  | cons c cs ih => simpa [pullItems, pullsWF] using ih

/-- The chunk bytes pending in the pull items are the sequence's bytes. -/
theorem pullItems_data (s : SeqT) : pullsData (pullItems s) = flat s.chunks := by
  rcases s with ⟨cs, e⟩
  induction cs with
  | nil => cases e <;> simp [pullItems, pullsData, flat]
  | cons c cs ih => simpa [pullItems, pullsData, flat] using ih

/-- The terminal condition pending in the pull items is the sequence's
error, or `io.EOF` for a clean end. -/
theorem pullItems_err (s : SeqT) : pullsErr (pullItems s) = s.err.getD GoErr.eof := by
  rcases s with ⟨cs, e⟩
  induction cs with
  | nil => cases e <;> simp [pullItems, pullsErr]
  | cons c cs ih => simpa [pullItems, pullsErr] using ih

/-- The first `Read` call converts the sequence; reading to exhaustion
afterwards is reading the converted state. -/
theorem readAllF_init (fuel b : Nat) (st : RState) :
    readAllF fuel b st = readAllF fuel b (initR st) := by
  cases fuel with
  | zero => rfl
  | succ fuel => simp only [readAllF, readGo_init]

/-- Reading a fresh `ReaderFromSeq` reader to exhaustion, with any
positive buffer size `b + 1`, yields exactly the sequence's bytes in
order, ending with the sequence's terminal error or `io.EOF`. -/
theorem readAll_fresh (s : SeqT) (b : Nat) :
    readAllF (fuelFor s) b (freshReader s)
      = some (flat s.chunks, s.err.getD GoErr.eof) := by
  rw [readAllF_init]
  have hinit : initR (freshReader s) = ⟨none, pullItems s, true, none, []⟩ := by
    simp [initR, freshReader]
  rw [hinit]
  have := readAllF_spec b (fuelFor s) (pullItems s) true [] (pullItems_wf s)
    (by simp [fuelFor])
  rw [this, pullItems_data, pullItems_err]
  simp

/-- Concatenation ignores empty chunks. -/
theorem flat_filter (l : List Bytes) :
    flat (l.filter (fun c => !c.isEmpty)) = flat l := by
  induction l with
  | nil => rfl
  | cons c cs ih =>
    by_cases hc : c.isEmpty
    · have : c = [] := by
        cases c
        · rfl
        · simp at hc
      simp [flat, hc, this, ih]
    · simp [flat, hc, ih]

/-- Concatenation over an append. -/
theorem flat_append (l l' : List Bytes) : flat (l ++ l') = flat l ++ flat l' := by
  induction l with
  | nil => rfl
  | cons c cs ih => simp [flat, ih]

/-- `CopySeq` into an all-accepting gathering sink writes every chunk,
returns the total chunk length and the sequence's terminal error. -/
theorem copySeqM_gather (cs : List Bytes) (e : Option GoErr) (g : Bytes) (t : Nat) :
    copySeqM gatherW cs e g t = (t + (flat cs).length, e, g ++ flat cs) := by
  induction cs generalizing g t with
  | nil => simp [copySeqM, flat]
  | cons c cs ih =>
    have hstep : copySeqM gatherW (c :: cs) e g t
        = copySeqM gatherW cs e (g ++ c) (t + c.length) := rfl
    rw [hstep, ih]
    simp [flat, List.append_assoc, Nat.add_assoc]

/-- Claim C1: round-trip.  For every byte source and every positive
buffer size `bufSize` (each fill fitting the one allocated buffer),
reading `ReaderFromSeq(SeqFromReader(r, bufSize))` to exhaustion — with
any positive destination buffer size `b + 1` — reproduces exactly the
byte stream of `r`, unchanged and in order, ending in `io.EOF`: on the
buffered fallback path (source `sc`, clean terminal `io.EOF`) the bytes
are all fills concatenated, and on the `WriterTo` fast path (source
`src`, clean finish) the bytes are all the source's writes
concatenated. -/
theorem roundTrip (sc : RScript) (src : WriterToSrc) (b bufSize : Nat)
    (hclean : sc.finalErr = GoErr.eof) (hsrc : src.final = none)
    (hb : 0 < bufSize)
    (hpre : ∀ c ∈ sc.pre, c.length ≤ bufSize)
    (hfin : sc.finalData.length ≤ bufSize) :
    readAllF (fuelFor (fallbackSeqT sc)) b (freshReader (fallbackSeqT sc))
        = some (flat sc.pre ++ sc.finalData, GoErr.eof) ∧
    readAllF (fuelFor (fastSeqT src)) b (freshReader (fastSeqT src))
        = some (flat src.writes, GoErr.eof) := by
  constructor
  · rw [readAll_fresh]
    simp [fallbackSeqT, hclean, flat_filter, flat_append, flat]
  · rw [readAll_fresh]
    simp [fastSeqT, hsrc]

theorem roundTrip_witness :
    readAllF (fuelFor (fallbackSeqT ⟨[[1], []], [2, 3], GoErr.eof⟩)) 0
        (freshReader (fallbackSeqT ⟨[[1], []], [2, 3], GoErr.eof⟩))
      = some ([1, 2, 3], GoErr.eof) ∧
    readAllF (fuelFor (fastSeqT ⟨[[4], [5, 6]], none⟩)) 0
        (freshReader (fastSeqT ⟨[[4], [5, 6]], none⟩))
      = some ([4, 5, 6], GoErr.eof) :=
  roundTrip ⟨[[1], []], [2, 3], GoErr.eof⟩ ⟨[[4], [5, 6]], none⟩ 0 2 rfl rfl
    (by decide) (by decide) (by decide)

/-- Claim C2: for every sequence, the bulk-transfer path
(`iterReader.WriteTo` before any `Read`, which runs `CopySeq`) delivers
exactly the sequence's bytes `flat s.chunks` — the same bytes, hence the
same total, that repeated incremental `Read` calls deliver — and returns
the sequence's terminal error; after the bulk path has run once the
installed replacement sequence is empty, so the next `Read` (and, the
state being a fixed point, every subsequent one) returns 0 bytes and
`io.EOF`. -/
theorem bulkMatchesIncremental (s : SeqT) (b : Nat) :
    iterWriteToF gatherW [] 1 (freshReader s)
      = some ((flat s.chunks).length, s.err, flat s.chunks, postBulk) ∧
    readAllF (fuelFor s) b (freshReader s)
      = some (flat s.chunks, s.err.getD GoErr.eof) ∧
    readGo postBulk (b + 1)
      = ([], some GoErr.eof, ⟨none, [], true, some GoErr.eof, []⟩) ∧
    readGo ⟨none, [], true, some GoErr.eof, []⟩ (b + 1)
      = ([], some GoErr.eof, ⟨none, [], true, some GoErr.eof, []⟩) := by
  refine ⟨?_, readAll_fresh s b, ?_, ?_⟩
  · simp [iterWriteToF, copySeq, copySeqM_gather, freshReader, postBulk]
  · simp [readGo, initR, postBulk, emptySeqT, pullItems]
  · simp [readGo, initR]

/-- `WriteTo` never produces a result once `Read` has been called:
`io.Copy(w, r)` sees that `*iterReader` implements `io.WriterTo` and
calls `r.WriteTo(w)` again, forever. -/
theorem iterWriteToF_diverges (w : MWriter σ) (s0 : σ) (fuel : Nat)
    (st : RState) (h : st.seq = none) :
    iterWriteToF w s0 fuel st = none := by
  induction fuel with
  | zero => rfl
  | succ fuel ih => simp [iterWriteToF, h, ih]

/-- Claim C10 (code bug): after one incremental `Read` of 1 byte over the
one-chunk sequence `[[1, 2, 3]]`, the reader holds residual bytes
`[2, 3]` and `r.seq == nil`; calling `WriteTo` then executes
`io.Copy(w, r)`, which — because `*iterReader` implements `io.WriterTo` —
is specified to call `r.WriteTo(w)` again: the call recurses forever (no
fuel bound suffices) instead of delivering the residual bytes and the
rest of the sequence as intended. -/
theorem writeTo_after_read_diverges :
    (readGo (freshReader ⟨[[1, 2, 3]], none⟩) 1).2.2.data = [2, 3] ∧
    (readGo (freshReader ⟨[[1, 2, 3]], none⟩) 1).2.2.seq = none ∧
    ∀ fuel, iterWriteToF gatherW [] fuel
      (readGo (freshReader ⟨[[1, 2, 3]], none⟩) 1).2.2 = none := by
  refine ⟨by decide, by decide, fun fuel => ?_⟩
  exact iterWriteToF_diverges gatherW [] fuel _ (by decide)

/-- Unfolding of one `CopySeq` iteration. -/
theorem copySeqM_cons (w : MWriter σ) (c : Bytes) (cs : List Bytes)
    (e0 : Option GoErr) (s : σ) (tot : Nat) :
    copySeqM w (c :: cs) e0 s tot
      = match (w.write s c).2.1 with
        | some we => (tot + (w.write s c).1, some we, (w.write s c).2.2)
        | none => copySeqM w cs e0 (w.write s c).2.2 (tot + (w.write s c).1) :=
  rfl

/-- Unfolding of one transform `Write` call inside `PipeSeqThrough`. -/
theorem xfWriter_write (xf : XForm) (accept : Nat → Bool) (st : PSt) (buf : Bytes) :
    (xfWriter xf accept).write st buf
      = ((if (match (writeList accept st.sw (xf.wr st.w).1).1 with
              | some e => some e
              | none => (xf.wr st.w).2) = none then buf.length else 0),
         (match (writeList accept st.sw (xf.wr st.w).1).1 with
          | some e => some e
          | none => (xf.wr st.w).2),
         ⟨st.w + 1, (writeList accept st.sw (xf.wr st.w).1).2⟩) :=
  rfl

/-- The sequence sink only ever yields chunk steps. -/
theorem swWrite_trace_noFail (accept : Nat → Bool) (st : SW) (buf : Bytes)
    (h : ∀ e, Step.fail e ∉ st.trace) :
    ∀ e, Step.fail e ∉ ((swWrite accept st buf).2.2).trace := by
  intro e
  by_cases ha : st.active <;> by_cases hc : accept st.idx <;>
    simp [swWrite, ha, hc, h e]

/-- Pushing a chunk list through the sequence sink adds only chunk
steps. -/
theorem writeList_trace_noFail (accept : Nat → Bool) (outs : List Bytes) :
    ∀ st : SW, (∀ e, Step.fail e ∉ st.trace) →
      ∀ e, Step.fail e ∉ ((writeList accept st outs).2).trace := by
  induction outs with
  | nil => intro st h e; exact h e
  | cons c cs ih =>
    intro st h e
    have h' := swWrite_trace_noFail accept st c h
    rcases hw : swWrite accept st c with ⟨n, we, st'⟩
    rw [hw] at h'
    cases we with
    | some e0 => simpa [writeList, hw] using h' e
    | none =>
      simp only [writeList, hw]
      exact ih st' (fun e1 => h' e1) e

/-- Driving input chunks through the transform adds only chunk steps to
the output trace. -/
theorem copySeqM_xf_trace_noFail (xf : XForm) (accept : Nat → Bool)
    (cs : List Bytes) : ∀ (e0 : Option GoErr) (st : PSt) (tot : Nat),
    (∀ e, Step.fail e ∉ st.sw.trace) →
    ∀ e, Step.fail e ∉ ((copySeqM (xfWriter xf accept) cs e0 st tot).2.2).sw.trace := by
  induction cs with
  | nil => intro e0 st tot h e; exact h e
  | cons c cs ih =>
    intro e0 st tot h e
    have h' := writeList_trace_noFail accept (xf.wr st.w).1 st.sw h
    rcases hw : writeList accept st.sw (xf.wr st.w).1 with ⟨we, sw'⟩
    rw [hw] at h'
    rw [copySeqM_cons, xfWriter_write, hw]
    cases we with
    | some e1 => simpa using h' e
    | none =>
      cases hxe : (xf.wr st.w).2 with
      | some e1 => simpa using h' e
      | none =>
        simpa using ih e0 ⟨st.w + 1, sw'⟩
          (tot + (if (none : Option GoErr) = none then c.length else 0))
          (fun e1 => h' e1) e

/-- Pushing a chunk list through an active sink with a fully accepting
consumer succeeds, appending every chunk to the trace. -/
theorem writeList_allTrue (outs : List Bytes) : ∀ (j : Nat) (tr : List Step),
    writeList (fun _ => true) ⟨true, j, tr⟩ outs
      = (none, ⟨true, j + outs.length, tr ++ outs.map Step.chunk⟩) := by
  induction outs with
  | nil => intro j tr; simp [writeList]
  | cons c cs ih =>
    intro j tr
    have hw : swWrite (fun _ => true) ⟨true, j, tr⟩ c
        = (c.length, none, ⟨true, j + 1, tr ++ [Step.chunk c]⟩) := by
      simp [swWrite]
    simp only [writeList, hw, ih (j + 1) (tr ++ [Step.chunk c])]
    simp
    omega

/-- Driving input chunks through a never-failing transform with a fully
accepting consumer succeeds, appending the transform's outputs for those
chunks to the trace. -/
theorem copySeqM_xf_allTrue (xf : XForm) (cs : List Bytes) :
    ∀ (k j : Nat) (tr : List Step) (t : Nat),
    (∀ i, i < cs.length → (xf.wr (k + i)).2 = none) →
    ∃ t', copySeqM (xfWriter xf (fun _ => true)) cs none ⟨k, ⟨true, j, tr⟩⟩ t
      = (t', none, ⟨k + cs.length, ⟨true, j + (outsFrom xf k cs.length).length,
          tr ++ (outsFrom xf k cs.length).map Step.chunk⟩⟩) := by
  induction cs with
  | nil =>
    intro k j tr t _
    exact ⟨t, by simp [copySeqM, outsFrom]⟩
  | cons c cs ih =>
    intro k j tr t h
    have hk : (xf.wr k).2 = none := by simpa using h 0 (by simp)
    have hwl := writeList_allTrue (xf.wr k).1 j tr
    obtain ⟨t', ht'⟩ := ih (k + 1) (j + (xf.wr k).1.length)
      (tr ++ ((xf.wr k).1.map Step.chunk)) (t + c.length)
      (fun i hi => by
        have := h (i + 1) (by simp; omega)
        have hadd : k + 1 + i = k + (i + 1) := by omega
        rw [hadd]
        exact this)
    refine ⟨t', ?_⟩
    rw [copySeqM_cons, xfWriter_write]
    simp only [hwl, hk, if_true]
    rw [ht']
    simp only [List.length_cons, outsFrom, List.map_append, List.length_append,
      List.length_map, ← List.append_assoc]
    refine congrArg (fun z => (t', none, z)) ?_
    refine congrArg₂ PSt.mk (by omega) ?_
    refine congrArg₂ (fun a b => SW.mk true a b) (by omega) rfl

/-- Claim C9: for every `PipeSeqThrough` output sequence, the transform
sink's `Close` is invoked exactly when driving the input through the
transform completed without failure (normal exhaustion of the input); a
failure from driving the input or from `Close` appears as a terminal
error step of the output iff the output side's active flag still holds
when `send` returns (a consumer that already refused suppresses it); and
in a failure-free, fully accepted run the output is exactly the
transform's outputs for all input chunks followed by the `Close` trailer
(e.g. padding), as chunk steps. -/
theorem pipeSeqThrough_spec (xf : XForm) (inT : SeqT) (accept : Nat → Bool) :
    ((runPipe xf inT accept).closed = true ↔ (runPipe xf inT accept).copyErr = none) ∧
    ((∃ e, Step.fail e ∈ (runPipe xf inT accept).trace) ↔
      ((runPipe xf inT accept).sendErr ≠ none ∧ (runPipe xf inT accept).activeEnd = true)) ∧
    ((inT.err = none ∧ (∀ i, i < inT.chunks.length → (xf.wr i).2 = none) ∧
        xf.cl.2 = none) →
      runPipe xf inT (fun _ => true)
        = ⟨((outsFrom xf 0 inT.chunks.length) ++ xf.cl.1).map Step.chunk,
           true, none, none, true⟩) := by
  have hnf : ∀ e, Step.fail e ∉
      ((copySeqM (xfWriter xf accept) inT.chunks inT.err ⟨0, ⟨true, 0, []⟩⟩ 0).2.2).sw.trace :=
    copySeqM_xf_trace_noFail xf accept inT.chunks inT.err ⟨0, ⟨true, 0, []⟩⟩ 0
      (by simp)
  rcases hc : copySeqM (xfWriter xf accept) inT.chunks inT.err ⟨0, ⟨true, 0, []⟩⟩ 0
    with ⟨tot, ce, st1⟩
  rw [hc] at hnf
  simp only at hnf
  refine ⟨?_, ?_, ?_⟩
  · cases ce with
    | some e =>
      have hr : runPipe xf inT accept
          = ⟨if st1.sw.active then st1.sw.trace ++ [Step.fail e] else st1.sw.trace,
             false, some e, some e, st1.sw.active⟩ := by
        simp [runPipe, copySeq, hc]
      rw [hr]
      simp
    | none =>
      rcases hcr : xfClose xf accept st1.sw with ⟨cre, sw2⟩
      cases cre with
      | some e2 =>
        have hr : runPipe xf inT accept
            = ⟨if sw2.active then sw2.trace ++ [Step.fail e2] else sw2.trace,
               true, none, some e2, sw2.active⟩ := by
          simp [runPipe, copySeq, hc, hcr]
        rw [hr]
        simp
      | none =>
        have hr : runPipe xf inT accept = ⟨sw2.trace, true, none, none, sw2.active⟩ := by
          simp [runPipe, copySeq, hc, hcr]
        rw [hr]
        simp
  · cases ce with
    | some e =>
      have hr : runPipe xf inT accept
          = ⟨if st1.sw.active then st1.sw.trace ++ [Step.fail e] else st1.sw.trace,
             false, some e, some e, st1.sw.active⟩ := by
        simp [runPipe, copySeq, hc]
      rw [hr]
      cases ha : st1.sw.active with
      | true =>
        refine ⟨fun _ => ⟨by simp, rfl⟩, fun _ => ⟨e, by simp⟩⟩
      | false =>
        constructor
        · rintro ⟨e1, h1⟩
          simp only [if_neg (by simp [ha] : ¬(st1.sw.active = true))] at h1
          exact absurd h1 (hnf e1)
        · rintro ⟨-, h2⟩
          simp at h2
    | none =>
      have hnf2 : ∀ e, Step.fail e ∉ ((writeList accept st1.sw xf.cl.1).2).trace :=
        writeList_trace_noFail accept xf.cl.1 st1.sw hnf
      rcases hcr : writeList accept st1.sw xf.cl.1 with ⟨cre, sw2⟩
      rw [hcr] at hnf2
      simp only at hnf2
      cases cre with
      | some e =>
        have hclr : xfClose xf accept st1.sw = (some e, sw2) := by
          simp only [xfClose, hcr]
        have hr : runPipe xf inT accept
            = ⟨if sw2.active then sw2.trace ++ [Step.fail e] else sw2.trace,
               true, none, some e, sw2.active⟩ := by
          simp [runPipe, copySeq, hc, hclr]
        rw [hr]
        cases ha : sw2.active with
        | true =>
          refine ⟨fun _ => ⟨by simp, rfl⟩, fun _ => ⟨e, by simp⟩⟩
        | false =>
          constructor
          · rintro ⟨e1, h1⟩
            simp only [if_neg (by simp [ha] : ¬(sw2.active = true))] at h1
            exact absurd h1 (hnf2 e1)
          · rintro ⟨-, h2⟩
            simp at h2
      | none =>
        cases hce : xf.cl.2 with
        | some e =>
          have hclr : xfClose xf accept st1.sw = (some e, sw2) := by
            simp only [xfClose, hcr, hce]
          have hr : runPipe xf inT accept
              = ⟨if sw2.active then sw2.trace ++ [Step.fail e] else sw2.trace,
                 true, none, some e, sw2.active⟩ := by
            simp [runPipe, copySeq, hc, hclr]
          rw [hr]
          cases ha : sw2.active with
          | true =>
            refine ⟨fun _ => ⟨by simp, rfl⟩, fun _ => ⟨e, by simp⟩⟩
          | false =>
            constructor
            · rintro ⟨e1, h1⟩
              simp only [if_neg (by simp [ha] : ¬(sw2.active = true))] at h1
              exact absurd h1 (hnf2 e1)
            · rintro ⟨-, h2⟩
              simp at h2
        | none =>
          have hclr : xfClose xf accept st1.sw = (none, sw2) := by
            simp only [xfClose, hcr, hce]
          have hr : runPipe xf inT accept
              = ⟨sw2.trace, true, none, none, sw2.active⟩ := by
            simp [runPipe, copySeq, hc, hclr]
          rw [hr]
          constructor
          · rintro ⟨e1, h1⟩
            exact absurd h1 (hnf2 e1)
          · rintro ⟨h1, -⟩
            exact absurd rfl h1
  · rintro ⟨he, hwn, hcl⟩
    obtain ⟨t', ht'⟩ := copySeqM_xf_allTrue xf inT.chunks 0 0 [] 0
      (fun i hi => by simpa using hwn i hi)
    have hwl := writeList_allTrue xf.cl.1 (outsFrom xf 0 inT.chunks.length).length
      ((outsFrom xf 0 inT.chunks.length).map Step.chunk)
    have hclr : xfClose xf (fun _ => true)
        ⟨true, (outsFrom xf 0 inT.chunks.length).length,
         (outsFrom xf 0 inT.chunks.length).map Step.chunk⟩
        = (xf.cl.2,
           ⟨true, (outsFrom xf 0 inT.chunks.length).length + xf.cl.1.length,
            (outsFrom xf 0 inT.chunks.length).map Step.chunk
              ++ xf.cl.1.map Step.chunk⟩) := by
      unfold xfClose
      rw [hwl]
    have hr : runPipe xf inT (fun _ => true)
        = ⟨(outsFrom xf 0 inT.chunks.length).map Step.chunk ++ xf.cl.1.map Step.chunk,
           true, none, none, true⟩ := by
      simp only [runPipe, copySeq, he, ht', Nat.zero_add, List.nil_append, hclr, hcl]
    rw [hr]
    simp [List.map_append]

theorem pipeSeqThrough_spec_witness :
    runPipe ⟨fun _ => ([[9]], none), ([[7]], none)⟩ ⟨[[1]], none⟩ (fun _ => true)
      = ⟨[Step.chunk [9], Step.chunk [7]], true, none, none, true⟩ :=
  (pipeSeqThrough_spec ⟨fun _ => ([[9]], none), ([[7]], none)⟩ ⟨[[1]], none⟩
      (fun _ => true)).2.2 ⟨rfl, fun _ _ => rfl, rfl⟩

/-! ## Refinement: the operational path models agree with the generic
driver over their denotations, so `fallbackSeqT`, `fastSeqT` and
`pullItems` are faithful to the sequence functions in the source. -/

/-- The fallback loop is the generic chunk-yield loop over the non-empty
fills. -/
theorem runFBPre_drive (accept : Nat → Bool) (ds : List Bytes) (i : Nat) :
    runFBPre accept ds i = driveChunks accept (ds.filter (fun c => !c.isEmpty)) i := by
  induction ds generalizing i with
  | nil => simp [runFBPre, driveChunks]
  | cons d ds ih =>
    by_cases hd : d.isEmpty
    · simp [runFBPre, hd, ih]
    · by_cases ha : accept i <;> simp [runFBPre, driveChunks, hd, ha, ih]

/-- The generic chunk-yield loop over an appended list. -/
theorem driveChunks_append (accept : Nat → Bool) (xs ys : List Bytes) :
    ∀ i, driveChunks accept (xs ++ ys) i
      = (if (driveChunks accept xs i).2.1
         then ((driveChunks accept xs i).1
                 ++ (driveChunks accept ys (driveChunks accept xs i).2.2).1,
               (driveChunks accept ys (driveChunks accept xs i).2.2).2)
         else driveChunks accept xs i) := by
  induction xs with
  | nil => intro i; simp [driveChunks]
  | cons x xs ih =>
    intro i
    by_cases ha : accept i
    · simp only [List.cons_append, driveChunks, ha, if_pos, List.append_eq]
      rw [ih (i + 1)]
      by_cases h2 : (driveChunks accept xs (i + 1)).2.1 <;> simp [h2]
    · simp [driveChunks, ha]

/-- The fallback sequence of `SeqFromReader` refines the generic driver
over its denotation `fallbackSeqT`: every consumer observes the same
steps from the code's loop as from the denotation. -/
theorem runFB_drive (sc : RScript) (accept : Nat → Bool) :
    runFB sc accept = driveSeqT (fallbackSeqT sc) accept := by
  rcases sc with ⟨pre, fd, fe⟩
  simp only [runFB, runFBPre_drive, driveSeqT, fallbackSeqT, List.filter_append]
  rw [driveChunks_append]
  by_cases hact : (driveChunks accept (pre.filter (fun c => !c.isEmpty)) 0).2.1
  · by_cases hfd : fd.isEmpty
    · have : fd = [] := by
        cases fd
        · rfl
        · simp at hfd
      subst this
      by_cases he : fe = GoErr.eof <;> simp [hact, he, driveChunks]
    · by_cases ha2 : accept (driveChunks accept (pre.filter (fun c => !c.isEmpty)) 0).2.2 <;>
        by_cases he : fe = GoErr.eof <;>
          simp [hact, hfd, ha2, he, driveChunks]
  · by_cases he : fe = GoErr.eof <;> simp [hact, he]

/-- The fast-path write loop agrees with the generic chunk-yield loop;
the manufactured write error is produced exactly when a chunk was
refused. -/
theorem runFastLoop_drive (accept : Nat → Bool) (cs : List Bytes) : ∀ i,
    (runFastLoop accept cs i).1 = (driveChunks accept cs i).1 ∧
    (runFastLoop accept cs i).2.1 = (driveChunks accept cs i).2.1 ∧
    ((runFastLoop accept cs i).2.2 = none ↔ (runFastLoop accept cs i).2.1 = true) := by
  induction cs with
  | nil => intro i; simp [runFastLoop, driveChunks]
  | cons c cs ih =>
    intro i
    by_cases ha : accept i <;> simp [runFastLoop, driveChunks, ha, ih (i + 1)]

/-- The fast-path sequence of `SeqFromReader` refines the generic driver
over its denotation `fastSeqT`. -/
theorem runFast_drive (src : WriterToSrc) (accept : Nat → Bool) :
    runFast src accept = driveSeqT (fastSeqT src) accept := by
  obtain ⟨h1, h2, h3⟩ := runFastLoop_drive accept src.writes 0
  unfold runFast driveSeqT
  rcases hr : runFastLoop accept src.writes 0 with ⟨tr, act, e0⟩
  rw [hr] at h1 h2 h3
  simp only at h1 h2 h3
  cases act with
  | true =>
    have he0 : e0 = none := h3.mpr rfl
    subst he0
    simp only [fastSeqT, ← h2, h1]
  | false =>
    have he0 : e0 ≠ none := fun h => by simpa [h] using h3
    simp only [fastSeqT, ← h2, h1]
    cases e0 with
    | none => exact absurd rfl he0
    | some e1 => cases src.final <;> simp

/-- The generic chunk-yield loop under a fully accepting consumer. -/
theorem driveChunks_allTrue (cs : List Bytes) : ∀ i,
    driveChunks (fun _ => true) cs i = (cs.map Step.chunk, true, i + cs.length) := by
  induction cs with
  | nil => intro i; simp [driveChunks]
  | cons c cs ih =>
    intro i
    simp [driveChunks, ih (i + 1)]
    omega

/-- The pull items the reader consumes are exactly the yields of the
sequence under the fully accepting consumer `iter.Pull2` provides. -/
theorem pullItems_drive (s : SeqT) :
    pullItems s = (driveSeqT s (fun _ => true)).map
      (fun st => match st with
                 | Step.chunk d => (d, (none : Option GoErr))
                 | Step.fail e => ([], some e)) := by
  rcases s with ⟨cs, e⟩
  cases e <;>
    simp [pullItems, driveSeqT, driveChunks_allTrue, List.map_map, Function.comp]

end Ioseq
